import Mathlib

/-!
Verification of the Cgl two-step MIR cut generator (`CglTwomir.cpp`).

The C code is shallowly embedded over exact rational arithmetic: a sparse
constraint is a list of `(coefficient, unified variable index)` pairs with a
right-hand side and a sense; the solver snapshot (`DGG_data_t`) carries the
per-unified-index bounds, current values, reduced costs and integrality flags.
Fallible C routines (those returning a nonzero `rval` through `DGG_TEST` /
`DGG_CHECKRVAL`, or aborting through `DGG_IF_EXIT`) are embedded as
`Option`-returning functions, `none` being failure.

The numeric tolerance constants (`DGG_MIN_RHO`, `DGG_MIN_ALPHA`,
`DGG_NULL_SLACK`, `DGG_BOUND_THRESH`, `DGG_NICEFY_*`) and the helper macros
`ABOV`, `DGG_MIN`, `DGG_MAX` are defined in the header `CglTwomir.hpp`, which
is not part of the sources here; following the specification they are treated
as fixed positive thresholds and are passed to the embedded functions as
explicit parameters.
-/

/-- Constraint sense: `'G'` (≥), `'L'` (≤) or `'E'` (=). -/
inductive Sense where
  | G : Sense
  | L : Sense
  | E : Sense
deriving DecidableEq, Repr

/-- A sparse constraint (`DGG_constraint_t`): ordered `(coefficient, index)`
pairs, a right-hand side and a sense.  `nz` of the C struct is
`terms.length`; the allocation capacity `max_nz` has no semantic content and
is dropped. -/
structure DGGconstraint where
  terms : List (ℚ × ℕ)
  rhs : ℚ
  sense : Sense
deriving DecidableEq, Repr

/-- The solver snapshot (`DGG_data_t`): bounds, current solution values,
reduced costs and integrality flags over the unified index space
`0 .. ncol+nrow-1`. -/
structure DGGdata where
  ncol : ℕ
  nrow : ℕ
  lb : ℕ → ℚ
  ub : ℕ → ℚ
  x : ℕ → ℚ
  rc : ℕ → ℚ
  isInteger : ℕ → Bool

/-- Modelled from the spec: the helper macro `ABOV` from the missing header
`CglTwomir.hpp` — the fractional remainder `v - floor(v)` ("the 'above'
fractional remainder, computed as `b − floor(b)`"). -/
def ABOV (v : ℚ) : ℚ := v - (⌊v⌋ : ℚ)

/-- The body of the coefficient loop of `DGG_buildMir`, over the zipped list
of `(base term, isint flag)` pairs.  A continuous variable keeps a positive
coefficient and zeroes a nonpositive one; an integer variable with
coefficient `v` gets `bht·floor(v) + min(bht, ABOV(v))`.  The
`DGG_IF_EXIT(vht<0, …)` abort is embedded as `none`. -/
def mirTerms (bht : ℚ) : List ((ℚ × ℕ) × Bool) → Option (List (ℚ × ℕ))
  | [] => some []
  | ((v, idx), isint) :: rest =>
    if isint = false then
      (mirTerms bht rest).map (fun ts => ((if v > 0 then v else (0 : ℚ)), idx) :: ts)
    else
      let vht := ABOV v
      if vht < 0 then none
      else (mirTerms bht rest).map
        (fun ts => (bht * (⌊v⌋ : ℚ) + min bht vht, idx) :: ts)

/-- `DGG_buildMir`: fails on an `'L'` base or an empty base; otherwise builds
the classic MIR cut `≥` with rhs `ABOV(b)·ceil(b)`. -/
def DGG_buildMir (isint : List Bool) (base : DGGconstraint) : Option DGGconstraint :=
  if base.sense = Sense.L then none
  else if base.terms.length = 0 then none
  else
    let b := base.rhs
    let bht := ABOV b
    let bup : ℚ := (⌈b⌉ : ℚ)
    (mirTerms bht (base.terms.zip isint)).map
      (fun ts => { terms := ts, rhs := bht * bup, sense := Sense.G })

/-- The closed-form value of the MIR coefficient for one term, as the claim
states it: continuous keeps a positive coefficient, integer gets
`f·floor(c) + min(f, c − floor(c))`; the variable index is unchanged. -/
def mirTermSpec (bht : ℚ) (t : ℚ × ℕ) (isint : Bool) : ℚ × ℕ :=
  if isint then (bht * (⌊t.1⌋ : ℚ) + min bht (ABOV t.1), t.2)
  else ((if t.1 > 0 then t.1 else 0), t.2)

/-- `DGG_is_a_multiple_of_b`: `a` divides `b` within tolerance when the
remainder `b − a·floor(b/a)` falls below the minimum-rho floor
(`DGG_MIN_RHO`, a parameter here since the header is not in the sources). -/
def DGG_is_a_multiple_of_b (minRho a b : ℚ) : Bool :=
  decide (b - a * (⌊b / a⌋ : ℚ) < minRho)

/-- The body of the coefficient loop of `DGG_build2step`.  The
`DGG_IF_EXIT(vht < 0.0, …)` abort is embedded as `none`. -/
def twoStepTerms (alpha tau rho : ℚ) :
    List ((ℚ × ℕ) × Bool) → Option (List (ℚ × ℕ))
  | [] => some []
  | ((v, idx), isint) :: rest =>
    if isint = false then
      (twoStepTerms alpha tau rho rest).map
        (fun ts => ((if v > 0 then v else (0 : ℚ)), idx) :: ts)
    else
      let vht := v - (⌊v⌋ : ℚ)
      if vht < 0 then none
      else
        let k := min (tau - 1) ((⌊vht / alpha⌋ : ℤ) : ℚ)
        (twoStepTerms alpha tau rho rest).map
          (fun ts => ((⌊v⌋ : ℚ) * tau * rho + k * rho + min rho (vht - k * alpha), idx) :: ts)

/-- `DGG_build2step`: fails on an `'L'` or empty base, on a split `alpha`
outside `(0, bht)`, when `alpha` divides `bht` within tolerance, or when the
remainder `rho` is below the minimum-rho floor; otherwise builds the
two-step MIR cut. -/
def DGG_build2step (minRho alpha : ℚ) (isint : List Bool)
    (base : DGGconstraint) : Option DGGconstraint :=
  if base.sense = Sense.L then none
  else if base.terms.length = 0 then none
  else
    let b := base.rhs
    let bht := ABOV b
    let bup : ℚ := (⌈b⌉ : ℚ)
    let tau : ℚ := (⌈bht / alpha⌉ : ℚ)
    let rho : ℚ := bht - alpha * (⌊bht / alpha⌋ : ℚ)
    if bht ≤ alpha ∨ alpha ≤ 0 then none
    else if DGG_is_a_multiple_of_b minRho alpha bht then none
    else if rho < minRho then none
    else
      (twoStepTerms alpha tau rho (base.terms.zip isint)).map
        (fun ts => { terms := ts, rhs := bup * tau * rho, sense := Sense.G })

/-- The closed-form value of the two-step coefficient for one term, as the
claim states it: continuous keeps a positive coefficient; integer `c` gets
`floor(c)·tau·rho + k·rho + min(rho, v − k·alpha)` with `v = frac(c)` and
`k = min(tau−1, floor(v/alpha))`. -/
def twoStepTermSpec (alpha tau rho : ℚ) (t : ℚ × ℕ) (isint : Bool) : ℚ × ℕ :=
  if isint then
    ((⌊t.1⌋ : ℚ) * tau * rho
      + min (tau - 1) ((⌊(t.1 - (⌊t.1⌋ : ℚ)) / alpha⌋ : ℤ) : ℚ) * rho
      + min rho ((t.1 - (⌊t.1⌋ : ℚ))
          - min (tau - 1) ((⌊(t.1 - (⌊t.1⌋ : ℚ)) / alpha⌋ : ℤ) : ℚ) * alpha),
     t.2)
  else ((if t.1 > 0 then t.1 else 0), t.2)

/-- The coefficient/rhs loop of `DGG_transformConstraint`: for each term, if
the variable is closer to its upper bound (`ub − x < (ub − lb)/2`) substitute
`x' = ub − x` (negate the coefficient, subtract `coeff·ub` from the rhs),
otherwise substitute `x' = x − lb` (subtract `coeff·lb` from the rhs). -/
def transformLoop (d : DGGdata) :
    List (ℚ × ℕ) → ℚ → List (ℚ × ℕ) × ℚ
  | [], rhs => ([], rhs)
  | (c, idx) :: rest, rhs =>
    if d.ub idx - d.x idx < (d.ub idx - d.lb idx) / 2 then
      let r := transformLoop d rest (rhs - c * d.ub idx)
      ((-c, idx) :: r.1, r.2)
    else
      let r := transformLoop d rest (rhs - c * d.lb idx)
      ((c, idx) :: r.1, r.2)

/-- The transformed value `px[i]` reported by `DGG_transformConstraint` for
one term: the distance to the closer bound, snapped to `0` within
`DGG_BOUND_THRESH` (a parameter here since the header is not in the
sources). -/
def transformX (thresh : ℚ) (d : DGGdata) (t : ℚ × ℕ) : ℚ :=
  if d.ub t.2 - d.x t.2 < (d.ub t.2 - d.lb t.2) / 2 then
    if |d.ub t.2 - d.x t.2| ≤ thresh then 0 else d.ub t.2 - d.x t.2
  else
    if |d.x t.2 - d.lb t.2| ≤ thresh then 0 else d.x t.2 - d.lb t.2

/-- `DGG_transformConstraint`: maps the constraint into the complemented
space; also reports, per kept variable, its transformed value, reduced cost
and integrality flag. -/
def DGG_transformConstraint (thresh : ℚ) (d : DGGdata) (con : DGGconstraint) :
    DGGconstraint × List ℚ × List ℚ × List Bool :=
  let r := transformLoop d con.terms con.rhs
  (⟨r.1, r.2, con.sense⟩,
   con.terms.map (transformX thresh d),
   con.terms.map (fun t => d.rc t.2),
   con.terms.map (fun t => d.isInteger t.2))

/-- The loop of `DGG_unTransformConstraint`: reverses the substitution using
the same per-variable closer-bound rule, recomputed from the snapshot. -/
def unTransformLoop (d : DGGdata) :
    List (ℚ × ℕ) → ℚ → List (ℚ × ℕ) × ℚ
  | [], rhs => ([], rhs)
  | (c, idx) :: rest, rhs =>
    if d.ub idx - d.x idx < (d.ub idx - d.lb idx) / 2 then
      let r := unTransformLoop d rest (rhs - c * d.ub idx)
      ((-c, idx) :: r.1, r.2)
    else
      let r := unTransformLoop d rest (rhs + c * d.lb idx)
      ((c, idx) :: r.1, r.2)

/-- `DGG_unTransformConstraint`. -/
def DGG_unTransformConstraint (d : DGGdata) (con : DGGconstraint) :
    DGGconstraint :=
  let r := unTransformLoop d con.terms con.rhs
  ⟨r.1, r.2, con.sense⟩

/-- A small concrete snapshot: two structural variables, no rows; variable 0
sits near its upper bound, variable 1 near its lower bound. -/
def dataWit : DGGdata :=
  { ncol := 2, nrow := 0,
    lb := fun _ => 0, ub := fun _ => 10,
    x := fun i => if i = 0 then 9 else 1,
    rc := fun _ => 0, isInteger := fun _ => false }

/-- `DGG_is2stepValid`: `alpha` must clear the minimum-alpha floor
(`DGG_MIN_ALPHA`, a parameter here), must not divide `bht` within tolerance,
and must satisfy `bht > alpha > 0` and `1/alpha ≥ tau = ceil(bht/alpha)`.
The computed-but-unused `tau_lim` of the source is omitted. -/
def DGG_is2stepValid (minAlpha minRho alpha bht : ℚ) : Bool :=
  if alpha < minAlpha then false
  else if DGG_is_a_multiple_of_b minRho alpha bht then false
  else if bht > alpha ∧ alpha > 0 then
    (if 1/alpha ≥ ((⌈bht / alpha⌉ : ℤ) : ℚ) then true else false)
  else false

/-- `DGG_cutLHS`: the value of the cut's left-hand side at the point `x`. -/
def DGG_cutLHS (c : DGGconstraint) (x : ℕ → ℚ) : ℚ :=
  (c.terms.map (fun t => t.1 * x t.2)).sum

/-- `DGG_isCutDesirable`: rejects a cut with more than 500 nonzeros, or one
not violated by the current solution beyond the null-slack tolerance
(`DGG_NULL_SLACK`, a parameter here).  The source returns `0`/`1`; `false`
is reject, `true` is accept. -/
def DGG_isCutDesirable (nullSlack : ℚ) (c : DGGconstraint) (d : DGGdata) : Bool :=
  if c.terms.length > 500 then false
  else if c.sense = Sense.G ∧ DGG_cutLHS c d.x > c.rhs - nullSlack then false
  else if c.sense = Sense.L ∧ DGG_cutLHS c d.x < c.rhs + nullSlack then false
  else if c.sense = Sense.E ∧ |DGG_cutLHS c d.x - c.rhs| < nullSlack then false
  else true

/-- A one-variable snapshot whose solution value is `1` everywhere. -/
def dataOne : DGGdata :=
  { ncol := 1, nrow := 0,
    lb := fun _ => 0, ub := fun _ => 2,
    x := fun _ => 1,
    rc := fun _ => 0, isInteger := fun _ => false }

/-- `DGG_isConstraintViolated`: transcribed branch for branch from the
source — every branch returns `0`. -/
def DGG_isConstraintViolated (nullSlack : ℚ) (d : DGGdata) (c : DGGconstraint) : Int :=
  if c.sense = Sense.G ∧ DGG_cutLHS c d.x > c.rhs - nullSlack then 0
  else if c.sense = Sense.L ∧ DGG_cutLHS c d.x < c.rhs + nullSlack then 0
  else if c.sense = Sense.E ∧ |DGG_cutLHS c d.x - c.rhs| < nullSlack then 0
  else 0

/-- The first cleanup pass of `DGG_nicefyConstraint`: zero every coefficient
whose magnitude is below the noise floor `DGG_NICEFY_MIN_ABSVALUE`. -/
def nicefyPass1 (minAbs : ℚ) (t : ℚ × ℕ) : ℚ × ℕ :=
  if |t.1| < minAbs then (0, t.2) else t

/-- The second pass of `DGG_nicefyConstraint` for one term: returns the new
term and the amount subtracted from the rhs.  Integer variable: a coefficient
within `DGG_NICEFY_MIN_FIX` of an integer is rounded (downward rounding
absorbs `frac·ub` into the rhs when below `DGG_NICEFY_MAX_PADDING`, else the
coefficient is inflated by the threshold).  Continuous variable: negative or
noise coefficients are zeroed; small positive ones are absorbed into the rhs
when safe, else floored up to the threshold. -/
def nicefyTerm (minAbs minFix maxPad : ℚ) (d : DGGdata) (t : ℚ × ℕ) :
    (ℚ × ℕ) × ℚ :=
  let c := t.1
  let idx := t.2
  if d.isInteger idx then
    let aht := ABOV c
    let u := d.ub idx
    if aht < minFix then
      if aht * u < maxPad then (((⌊c⌋ : ℚ), idx), aht * u)
      else (((⌊c⌋ : ℚ) + minFix, idx), 0)
    else if 1 - aht < minFix then (((⌈c⌉ : ℚ), idx), 0)
    else ((c, idx), 0)
  else
    if c < minAbs then ((0, idx), 0)
    else if c < minFix then
      if c * d.ub idx < maxPad then ((0, idx), c * d.ub idx)
      else ((minFix, idx), 0)
    else ((c, idx), 0)

/-- `DGG_nicefyConstraint`: rejects an `'L'` constraint; otherwise cleans
noise, rounds near-integral coefficients of integer variables (absorbing the
error into the rhs within the padding limit), fixes small continuous
coefficients, and forces the sense to `'≥'`. -/
def DGG_nicefyConstraint (minAbs minFix maxPad : ℚ) (d : DGGdata)
    (cut : DGGconstraint) : Option DGGconstraint :=
  if cut.sense = Sense.L then none
  else
    let processed := (cut.terms.map (nicefyPass1 minAbs)).map
      (nicefyTerm minAbs minFix maxPad d)
    some { terms := processed.map (fun p => p.1),
           rhs := cut.rhs - (processed.map (fun p => p.2)).sum,
           sense := Sense.G }

/-- One full nicefy step on a single term: noise pass then rounding pass,
keeping the coefficient only. -/
def onceTerm (minAbs minFix maxPad : ℚ) (d : DGGdata) (t : ℚ × ℕ) : ℚ × ℕ :=
  (nicefyTerm minAbs minFix maxPad d (nicefyPass1 minAbs t)).1

/-- The data members of `CglTwomir` (the `CglCutGenerator` base carries no
data relevant here). -/
structure CglTwomir where
  do_mir_ : Bool
  do_2mir_ : Bool
  do_tab_ : Bool
  do_form_ : Bool
  t_min_ : Int
  t_max_ : Int
  q_min_ : Int
  q_max_ : Int
  a_max_ : Int
  form_nrows_ : Int
deriving DecidableEq, Repr

/-- The default constructor. -/
def CglTwomir.mkDefault : CglTwomir :=
  { do_mir_ := true, do_2mir_ := true, do_tab_ := true, do_form_ := true,
    t_min_ := 1, t_max_ := 1, q_min_ := 1, q_max_ := 1, a_max_ := 2,
    form_nrows_ := 0 }

/-- The fields the copy constructor leaves uninitialized.  C++ gives them
indeterminate values, modelled by passing the values they happen to take as
an explicit argument. -/
structure CglTwomirUninit where
  do_mir_ : Bool
  do_2mir_ : Bool
  do_tab_ : Bool
  do_form_ : Bool
  a_max_ : Int
  form_nrows_ : Int

/-- The copy constructor: only `t_min_`, `t_max_`, `q_min_`, `q_max_` come
from `source`; every remaining field is uninitialized (indeterminate,
supplied by `u`). -/
def CglTwomir.copyCtor (source : CglTwomir) (u : CglTwomirUninit) : CglTwomir :=
  { do_mir_ := u.do_mir_, do_2mir_ := u.do_2mir_, do_tab_ := u.do_tab_,
    do_form_ := u.do_form_,
    t_min_ := source.t_min_, t_max_ := source.t_max_,
    q_min_ := source.q_min_, q_max_ := source.q_max_,
    a_max_ := u.a_max_, form_nrows_ := u.form_nrows_ }

/-- `clone` just invokes the copy constructor. -/
def CglTwomir.clone (source : CglTwomir) (u : CglTwomirUninit) : CglTwomir :=
  CglTwomir.copyCtor source u

/-- `operator=`: assigns only the four scale-range fields from `rhs`, leaving
every other field of the target as it was. -/
def CglTwomir.assign (this rhs : CglTwomir) : CglTwomir :=
  { this with
    t_min_ := rhs.t_min_, t_max_ := rhs.t_max_,
    q_min_ := rhs.q_min_, q_max_ := rhs.q_max_ }

/-- A cut-list entry: constraint, family tag and split parameter
(`l->c[i]`, `l->ctype[i]`, `l->alpha[i]`). -/
structure DGGlist where
  c : List DGGconstraint
  ctype : List Int
  alpha : List ℚ
  n : ℕ

/-- The out-of-range guard of `DGG_list_delcut` as written in the source:
`i >= l->n && i < 0`. -/
def delcutGuard (l : DGGlist) (i : Int) : Bool :=
  decide (i ≥ (l.n : Int)) && decide (i < 0)

/-- A placeholder constraint standing for the indeterminate value a C array
read yields outside the initialized range. -/
def junkConstraint : DGGconstraint := ⟨[], 0, Sense.G⟩

/-- `DGG_list_delcut`: early-returns when the (unsatisfiable) guard holds;
otherwise frees slot `i`, moves the last live entry into it and decrements
the count.  Out-of-range array accesses of the C original are undefined
behaviour; here `List.set` ignores an out-of-range index and `getD`
substitutes a placeholder. -/
def DGG_list_delcut (l : DGGlist) (i : Int) : DGGlist :=
  if delcutGuard l i then l
  else
    { c := l.c.set i.toNat (l.c.getD (l.n - 1) junkConstraint),
      ctype := l.ctype.set i.toNat (l.ctype.getD (l.n - 1) 0),
      alpha := l.alpha.set i.toNat (l.alpha.getD (l.n - 1) 0),
      n := l.n - 1 }

theorem ABOV_nonneg (v : ℚ) : 0 ≤ ABOV v := by
  have := Int.floor_le v
  simp only [ABOV]
  linarith

theorem ABOV_intCast (z : ℤ) : ABOV (z : ℚ) = 0 := by
  simp [ABOV]

theorem mirTerms_eq_map (bht : ℚ) :
    ∀ l : List ((ℚ × ℕ) × Bool),
      mirTerms bht l = some (l.map (fun p => mirTermSpec bht p.1 p.2))
  | [] => rfl
  | ((v, idx), isint) :: rest => by
    have ih := mirTerms_eq_map bht rest
    cases isint with
    | false => simp [mirTerms, ih, mirTermSpec]
    | true =>
      have hnn : ¬ ABOV v < 0 := not_lt.mpr (ABOV_nonneg v)
      simp [mirTerms, hnn, ih, mirTermSpec]

theorem zip_map_eq_zipWith {α β γ : Type} (f : α → β → γ) :
    ∀ (l₁ : List α) (l₂ : List β),
      (l₁.zip l₂).map (fun p => f p.1 p.2) = List.zipWith f l₁ l₂
  | [], _ => by simp
  | _ :: _, [] => by simp
  | a :: l₁, b :: l₂ => by
    simpa using zip_map_eq_zipWith f l₁ l₂

/-- C1: for every base constraint with sense other than `'≤'` and at least
one nonzero, and every integrality flag vector, `DGG_buildMir` returns a
`'≥'` cut with rhs `f·ceil(b)` where `f = b − floor(b)`; a continuous
variable keeps a positive coefficient and is zeroed otherwise; an integer
variable with coefficient `c` gets `f·floor(c) + min(f, c − floor(c))`;
every variable index is unchanged. -/
theorem buildMir_spec (isint : List Bool) (base : DGGconstraint)
    (hs : base.sense ≠ Sense.L) (hnz : base.terms ≠ [])
    (hlen : isint.length = base.terms.length) :
    DGG_buildMir isint base =
      some { terms := List.zipWith (fun t i =>
               if i then
                 ((base.rhs - (⌊base.rhs⌋ : ℚ)) * (⌊t.1⌋ : ℚ)
                   + min (base.rhs - (⌊base.rhs⌋ : ℚ)) (t.1 - (⌊t.1⌋ : ℚ)), t.2)
               else ((if t.1 > 0 then t.1 else 0), t.2))
               base.terms isint,
             rhs := (base.rhs - (⌊base.rhs⌋ : ℚ)) * (⌈base.rhs⌉ : ℚ),
             sense := Sense.G } := by
  have hlen0 : base.terms.length ≠ 0 := by
    simpa [List.length_eq_zero] using hnz
  simp only [DGG_buildMir, hs, hlen0, if_false,
    mirTerms_eq_map, Option.map_some]
  refine congrArg some ?_
  refine congrArg (fun ts => DGGconstraint.mk ts _ _) ?_
  rw [← zip_map_eq_zipWith]
  rfl

/-- Witness for C1: base `(3/2)x₀ + (−2)x₁ ≥ 7/2` with `x₀` integer and
`x₁` continuous yields the MIR cut `1·x₀ + 0·x₁ ≥ 2`. -/
theorem buildMir_spec_witness :
    DGG_buildMir [true, false] ⟨[(3/2, 0), (-2, 1)], 7/2, Sense.G⟩ =
      some ⟨[(1, 0), (0, 1)], 2, Sense.G⟩ := by
  have h := buildMir_spec [true, false] ⟨[(3/2, 0), (-2, 1)], 7/2, Sense.G⟩
    (by decide) (by decide) (by decide)
  rw [h]
  have hc : ⌈(7/2 : ℚ)⌉ = (4 : ℤ) := by
    rw [Int.ceil_eq_iff]
    norm_num
  norm_num [List.zipWith, min_def, hc]

theorem twoStepTerms_eq_map (alpha tau rho : ℚ) :
    ∀ l : List ((ℚ × ℕ) × Bool),
      twoStepTerms alpha tau rho l =
        some (l.map (fun p => twoStepTermSpec alpha tau rho p.1 p.2))
  | [] => rfl
  | ((v, idx), isint) :: rest => by
    have ih := twoStepTerms_eq_map alpha tau rho rest
    cases isint with
    | false => simp [twoStepTerms, ih, twoStepTermSpec]
    | true =>
      have hnn : ¬ v - (⌊v⌋ : ℚ) < 0 := by
        have := Int.floor_le v
        linarith
      simp [twoStepTerms, hnn, ih, twoStepTermSpec]

/-- C2: for every `'≥'` base constraint with at least one nonzero and every
split `alpha`, `DGG_build2step` fails unless `f > alpha > 0`, `alpha` is not
an exact divisor of `f` within tolerance, and `rho = f − alpha·floor(f/alpha)`
is at least the minimum-rho floor (`f = b − floor(b)`); when it succeeds it
returns a `'≥'` cut with rhs `ceil(b)·tau·rho` for `tau = ceil(f/alpha)`,
continuous coefficients kept when positive and zeroed otherwise, and integer
coefficients `floor(c)·tau·rho + k·rho + min(rho, v − k·alpha)` with
`v = frac(c)`, `k = min(tau−1, floor(v/alpha))`, indices unchanged. -/
theorem build2step_spec (minRho alpha : ℚ) (isint : List Bool)
    (base : DGGconstraint) (hs : base.sense = Sense.G)
    (hnz : base.terms ≠ []) (hlen : isint.length = base.terms.length) :
    DGG_build2step minRho alpha isint base =
      (if ABOV base.rhs > alpha ∧ alpha > 0 ∧
          DGG_is_a_multiple_of_b minRho alpha (ABOV base.rhs) = false ∧
          minRho ≤ ABOV base.rhs - alpha * (⌊ABOV base.rhs / alpha⌋ : ℚ)
       then some
         { terms := List.zipWith
             (fun t i => twoStepTermSpec alpha ((⌈ABOV base.rhs / alpha⌉ : ℤ) : ℚ)
               (ABOV base.rhs - alpha * (⌊ABOV base.rhs / alpha⌋ : ℚ)) t i)
             base.terms isint,
           rhs := (⌈base.rhs⌉ : ℚ) * ((⌈ABOV base.rhs / alpha⌉ : ℤ) : ℚ)
             * (ABOV base.rhs - alpha * (⌊ABOV base.rhs / alpha⌋ : ℚ)),
           sense := Sense.G }
       else none) := by
  have hsL : base.sense ≠ Sense.L := by rw [hs]; exact fun h => by cases h
  have hlen0 : base.terms.length ≠ 0 := by
    simpa [List.length_eq_zero] using hnz
  simp only [DGG_build2step, hsL, hlen0, if_false]
  by_cases h1 : ABOV base.rhs ≤ alpha ∨ alpha ≤ 0
  · have hcond : ¬ (ABOV base.rhs > alpha ∧ alpha > 0 ∧
        DGG_is_a_multiple_of_b minRho alpha (ABOV base.rhs) = false ∧
        minRho ≤ ABOV base.rhs - alpha * (⌊ABOV base.rhs / alpha⌋ : ℚ)) := by
      rcases h1 with h | h
      · exact fun hc => absurd hc.1 (not_lt.mpr h)
      · exact fun hc => absurd hc.2.1 (not_lt.mpr h)
    simp [h1, hcond]
  · push_neg at h1
    by_cases h2 : ABOV base.rhs - alpha * (⌊ABOV base.rhs / alpha⌋ : ℚ) < minRho
    · have hm : DGG_is_a_multiple_of_b minRho alpha (ABOV base.rhs) = true := by
        simpa [DGG_is_a_multiple_of_b] using h2
      have hcond : ¬ (ABOV base.rhs > alpha ∧ alpha > 0 ∧
          DGG_is_a_multiple_of_b minRho alpha (ABOV base.rhs) = false ∧
          minRho ≤ ABOV base.rhs - alpha * (⌊ABOV base.rhs / alpha⌋ : ℚ)) := by
        intro hc
        rw [hm] at hc
        exact absurd hc.2.2.1 (by simp)
      simp [h1, hm, hcond]
    · have hm : DGG_is_a_multiple_of_b minRho alpha (ABOV base.rhs) = false := by
        simpa [DGG_is_a_multiple_of_b] using h2
      have hcond : ABOV base.rhs > alpha ∧ alpha > 0 ∧
          DGG_is_a_multiple_of_b minRho alpha (ABOV base.rhs) = false ∧
          minRho ≤ ABOV base.rhs - alpha * (⌊ABOV base.rhs / alpha⌋ : ℚ) :=
        ⟨h1.1, h1.2, hm, not_lt.mp h2⟩
      simp only [h1, hm, h2, hcond, if_true, if_false, not_lt.mpr,
        twoStepTerms_eq_map, Option.map_some, Bool.false_eq_true,
        if_neg (not_or.mpr ⟨not_le.mpr h1.1, not_le.mpr h1.2⟩)]
      rw [← zip_map_eq_zipWith]
      simp

/-- Witness for C2: base `(3/2)x₀ + (−2)x₁ ≥ 7/2` (`x₀` integer), split
`alpha = 1/5`, min-rho floor `1/100`: `f = 1/2`, `tau = 3`, `rho = 1/10`,
giving the two-step cut `(3/5)x₀ + 0·x₁ ≥ 6/5`. -/
theorem build2step_spec_witness :
    DGG_build2step (1/100) (1/5) [true, false]
        ⟨[(3/2, 0), (-2, 1)], 7/2, Sense.G⟩ =
      some ⟨[(3/5, 0), (0, 1)], 6/5, Sense.G⟩ := by
  have h := build2step_spec (1/100) (1/5) [true, false]
    ⟨[(3/2, 0), (-2, 1)], 7/2, Sense.G⟩ rfl (by decide) (by decide)
  rw [h]
  have hc1 : ⌈(7/2 : ℚ)⌉ = (4 : ℤ) := by rw [Int.ceil_eq_iff]; norm_num
  have hc2 : ⌈(5/2 : ℚ)⌉ = (3 : ℤ) := by rw [Int.ceil_eq_iff]; norm_num
  norm_num [ABOV, DGG_is_a_multiple_of_b, twoStepTermSpec, List.zipWith,
    min_def, hc1, hc2, decide_eq_false_iff_not]

theorem transformLoop_eq (d : DGGdata) :
    ∀ (l : List (ℚ × ℕ)) (rhs : ℚ),
      transformLoop d l rhs =
        (l.map (fun t => if d.ub t.2 - d.x t.2 < (d.ub t.2 - d.lb t.2) / 2
                         then (-t.1, t.2) else t),
         rhs - (l.map (fun t =>
           if d.ub t.2 - d.x t.2 < (d.ub t.2 - d.lb t.2) / 2
           then t.1 * d.ub t.2 else t.1 * d.lb t.2)).sum)
  | [], rhs => by simp [transformLoop]
  | (c, idx) :: rest, rhs => by
    by_cases hb : d.ub idx - d.x idx < (d.ub idx - d.lb idx) / 2
    · simp only [transformLoop, hb, if_true, transformLoop_eq d rest,
        List.map_cons, List.sum_cons, Prod.mk.injEq]
      exact ⟨by simp, by ring⟩
    · simp only [transformLoop, hb, if_false, transformLoop_eq d rest,
        List.map_cons, List.sum_cons, Prod.mk.injEq]
      exact ⟨by simp, by ring⟩

theorem unTransformLoop_eq (d : DGGdata) :
    ∀ (l : List (ℚ × ℕ)) (rhs : ℚ),
      unTransformLoop d l rhs =
        (l.map (fun t => if d.ub t.2 - d.x t.2 < (d.ub t.2 - d.lb t.2) / 2
                         then (-t.1, t.2) else t),
         rhs + (l.map (fun t =>
           if d.ub t.2 - d.x t.2 < (d.ub t.2 - d.lb t.2) / 2
           then -(t.1 * d.ub t.2) else t.1 * d.lb t.2)).sum)
  | [], rhs => by simp [unTransformLoop]
  | (c, idx) :: rest, rhs => by
    by_cases hb : d.ub idx - d.x idx < (d.ub idx - d.lb idx) / 2
    · simp only [unTransformLoop, hb, if_true, unTransformLoop_eq d rest,
        List.map_cons, List.sum_cons, Prod.mk.injEq]
      exact ⟨by simp, by ring⟩
    · simp only [unTransformLoop, hb, if_false, unTransformLoop_eq d rest,
        List.map_cons, List.sum_cons, Prod.mk.injEq]
      exact ⟨by simp, by ring⟩

/-- C3: for every Snapshot and every constraint whose variable indices lie in
the unified index range, untransform after transform reproduces the original
coefficients and rhs exactly (the embedding is over exact rationals, so the
floating tolerance of the claim sharpens to equality). -/
theorem transform_unTransform_roundtrip (thresh : ℚ) (d : DGGdata)
    (con : DGGconstraint)
    (hrange : ∀ t ∈ con.terms, t.2 < d.ncol + d.nrow) :
    DGG_unTransformConstraint d (DGG_transformConstraint thresh d con).1 = con := by
  obtain ⟨terms, rhs, sense⟩ := con
  simp only [DGG_unTransformConstraint, DGG_transformConstraint,
    transformLoop_eq, unTransformLoop_eq, List.map_map, DGGconstraint.mk.injEq]
  refine ⟨?_, ?_, by simp⟩
  · have hid : ∀ t ∈ terms,
        ((fun t : ℚ × ℕ => if d.ub t.2 - d.x t.2 < (d.ub t.2 - d.lb t.2) / 2
            then (-t.1, t.2) else t) ∘
         (fun t : ℚ × ℕ => if d.ub t.2 - d.x t.2 < (d.ub t.2 - d.lb t.2) / 2
            then (-t.1, t.2) else t)) t = id t := by
      intro t _
      by_cases hb : d.ub t.2 - d.x t.2 < (d.ub t.2 - d.lb t.2) / 2 <;>
        simp [Function.comp, hb]
    rw [List.map_congr_left hid, List.map_id]
  · have hadj : ∀ t ∈ terms,
        ((fun s : ℚ × ℕ => if d.ub s.2 - d.x s.2 < (d.ub s.2 - d.lb s.2) / 2
            then -(s.1 * d.ub s.2) else s.1 * d.lb s.2) ∘
         (fun t : ℚ × ℕ => if d.ub t.2 - d.x t.2 < (d.ub t.2 - d.lb t.2) / 2
            then (-t.1, t.2) else t)) t =
        (fun t : ℚ × ℕ => if d.ub t.2 - d.x t.2 < (d.ub t.2 - d.lb t.2) / 2
            then t.1 * d.ub t.2 else t.1 * d.lb t.2) t := by
      intro t _
      by_cases hb : d.ub t.2 - d.x t.2 < (d.ub t.2 - d.lb t.2) / 2 <;>
        simp [Function.comp, hb]
    rw [List.map_congr_left hadj]
    ring

/-- Witness for C3: the constraint `2x₀ + 3x₁ ≥ 5` on `dataWit` (one
variable complemented at its upper bound, one shifted by its lower bound)
round-trips exactly. -/
theorem transform_unTransform_roundtrip_witness :
    DGG_unTransformConstraint dataWit
        (DGG_transformConstraint 1 dataWit ⟨[(2, 0), (3, 1)], 5, Sense.G⟩).1 =
      ⟨[(2, 0), (3, 1)], 5, Sense.G⟩ :=
  transform_unTransform_roundtrip 1 dataWit ⟨[(2, 0), (3, 1)], 5, Sense.G⟩
    (by decide)

theorem rat_remainder_lt (a b : ℚ) (ha : 0 < a) :
    b - a * (⌊b / a⌋ : ℚ) < a := by
  have h1 : b / a < (⌊b / a⌋ : ℚ) + 1 := Int.lt_floor_add_one _
  have h2 : b / a * a < ((⌊b / a⌋ : ℚ) + 1) * a :=
    mul_lt_mul_of_pos_right h1 ha
  rw [div_mul_cancel₀ _ (ne_of_gt ha)] at h2
  nlinarith

/-- C4: `DGG_is2stepValid(alpha, f)` returns true iff `0 < alpha < f`,
`alpha` is not a near-exact divisor of `f`, and `ceil(f/alpha) ≤ 1/alpha`;
false in every other case.  The minimum-alpha guard of the source is
subsumed by the divisor test whenever the minimum-alpha floor does not
exceed the minimum-rho floor, which is the modelled configuration. -/
theorem is2stepValid_spec (minAlpha minRho alpha bht : ℚ)
    (hord : minAlpha ≤ minRho) :
    DGG_is2stepValid minAlpha minRho alpha bht = true ↔
      (0 < alpha ∧ alpha < bht ∧
       DGG_is_a_multiple_of_b minRho alpha bht = false ∧
       ((⌈bht / alpha⌉ : ℤ) : ℚ) ≤ 1 / alpha) := by
  constructor
  · intro h
    simp only [DGG_is2stepValid] at h
    by_cases h1 : alpha < minAlpha
    · simp [h1] at h
    · by_cases h2 : DGG_is_a_multiple_of_b minRho alpha bht
      · simp [h1, h2] at h
      · by_cases h3 : bht > alpha ∧ alpha > 0
        · by_cases h4 : 1/alpha ≥ ((⌈bht / alpha⌉ : ℤ) : ℚ)
          · exact ⟨h3.2, h3.1, Bool.not_eq_true _ ▸ (by simpa using h2), h4⟩
          · rw [ge_iff_le, one_div] at h4
            simp [h1, h2, h3, h4] at h
        · simp [h1, h2, h3] at h
  · rintro ⟨ha, hab, hm, hq⟩
    have hrem : minRho ≤ bht - alpha * (⌊bht / alpha⌋ : ℚ) := by
      have := of_decide_eq_false hm
      simpa [DGG_is_a_multiple_of_b] using this
    have hlt : bht - alpha * (⌊bht / alpha⌋ : ℚ) < alpha :=
      rat_remainder_lt alpha bht ha
    have hge : ¬ alpha < minAlpha := by
      push_neg
      calc minAlpha ≤ minRho := hord
        _ ≤ bht - alpha * (⌊bht / alpha⌋ : ℚ) := hrem
        _ ≤ alpha := le_of_lt hlt
    have hq' : ((⌈bht / alpha⌉ : ℤ) : ℚ) ≤ alpha⁻¹ := hq.trans_eq (one_div alpha)
    simp [DGG_is2stepValid, hge, hm, ha, hab, hq, hq']

/-- Witness for C4: with both floors at `1/1000000`, `alpha = 1/4` and
`f = 2/5` the validity test accepts (`tau = 2 ≤ 1/alpha = 4`, remainder
`3/20` well above the floor). -/
theorem is2stepValid_spec_witness :
    DGG_is2stepValid (1/1000000) (1/1000000) (1/4) (2/5) = true := by
  rw [is2stepValid_spec (1/1000000) (1/1000000) (1/4) (2/5) le_rfl]
  have hc : ⌈(8/5 : ℚ)⌉ = (2 : ℤ) := by rw [Int.ceil_eq_iff]; norm_num
  refine ⟨by norm_num, by norm_num, ?_, ?_⟩
  · norm_num [DGG_is_a_multiple_of_b, decide_eq_false_iff_not]
  · norm_num [show (2/5 : ℚ) / (1/4) = 8/5 by norm_num, hc]

/-- Counterexample to C5: with tolerance `1/100000`, the `'≥'` cut
`1·x₀ ≥ 1 + 1/100000` has `lhs = 1` exactly equal to `rhs − tol`; the claim
says such a boundary cut is rejected, but `DGG_isCutDesirable` accepts it
(the source rejects only on the strict inequality `lhs > rhs − tol`). -/
theorem isCutDesirable_boundary_counterexample :
    DGG_cutLHS ⟨[(1, 0)], 1 + 1/100000, Sense.G⟩ dataOne.x =
        (1 + 1/100000 : ℚ) - 1/100000 ∧
    DGG_isCutDesirable (1/100000) ⟨[(1, 0)], 1 + 1/100000, Sense.G⟩ dataOne = true := by
  constructor
  · norm_num [DGG_cutLHS, dataOne]
  · norm_num [DGG_isCutDesirable, DGG_cutLHS, dataOne]
    exact ⟨by decide, Or.inr (le_abs_self _)⟩

/-- C5 (amended): `DGG_isCutDesirable` rejects a cut exactly when its nonzero
count exceeds 500 or it is not violated beyond the null-slack tolerance,
where the violation tests are non-strict on the boundary: a `'≥'` cut is
accepted iff `lhs ≤ rhs − tol`, a `'≤'` cut iff `lhs ≥ rhs + tol`, an `'='`
cut iff `|lhs − rhs| ≥ tol`; in particular a `'≥'` cut whose lhs equals
exactly `rhs − tol` is accepted. -/
theorem isCutDesirable_amended (nullSlack : ℚ) (c : DGGconstraint) (d : DGGdata) :
    DGG_isCutDesirable nullSlack c d = true ↔
      (c.terms.length ≤ 500 ∧
       (c.sense = Sense.G → DGG_cutLHS c d.x ≤ c.rhs - nullSlack) ∧
       (c.sense = Sense.L → DGG_cutLHS c d.x ≥ c.rhs + nullSlack) ∧
       (c.sense = Sense.E → |DGG_cutLHS c d.x - c.rhs| ≥ nullSlack)) := by
  rcases c with ⟨terms, rhs, sense⟩
  simp only [DGG_isCutDesirable]
  split_ifs with h1 h2 h3 h4
  · simp only [Bool.false_eq_true, false_iff]
    intro hc
    exact absurd hc.1 (by omega)
  · simp only [Bool.false_eq_true, false_iff]
    intro hc
    exact absurd h2.2 (not_lt.mpr (hc.2.1 h2.1))
  · simp only [Bool.false_eq_true, false_iff]
    intro hc
    exact absurd h3.2 (not_lt.mpr (hc.2.2.1 h3.1))
  · simp only [Bool.false_eq_true, false_iff]
    intro hc
    exact absurd h4.2 (not_lt.mpr (hc.2.2.2 h4.1))
  · simp only [true_iff]
    refine ⟨by omega, ?_, ?_, ?_⟩
    · intro hG
      by_contra hlt
      exact h2 ⟨hG, not_le.mp hlt⟩
    · intro hL
      by_contra hlt
      exact h3 ⟨hL, not_le.mp hlt⟩
    · intro hE
      by_contra hlt
      exact h4 ⟨hE, not_le.mp hlt⟩

/-- Witness for C5's amended rule: the violated cut `1·x₀ ≥ 2` at `x₀ = 1`
is accepted. -/
theorem isCutDesirable_amended_witness :
    DGG_isCutDesirable (1/100000) ⟨[(1, 0)], 2, Sense.G⟩ dataOne = true := by
  rw [isCutDesirable_amended]
  exact ⟨by norm_num, fun _ => by norm_num [DGG_cutLHS, dataOne],
    fun h => absurd h (by decide), fun h => absurd h (by decide)⟩

/-- C8: `DGG_isConstraintViolated` returns `0` for every snapshot and every
constraint, on every branch. -/
theorem isConstraintViolated_always_zero (nullSlack : ℚ) (d : DGGdata)
    (c : DGGconstraint) :
    DGG_isConstraintViolated nullSlack d c = 0 := by
  unfold DGG_isConstraintViolated
  split_ifs <;> rfl

/-- C7: `DGG_nicefyConstraint` fails exactly on `'≤'` input, and every
constraint it returns has sense `'≥'`. -/
theorem nicefy_sense_spec (minAbs minFix maxPad : ℚ) (d : DGGdata)
    (cut : DGGconstraint) :
    (DGG_nicefyConstraint minAbs minFix maxPad d cut = none ↔
      cut.sense = Sense.L) ∧
    (∀ c', DGG_nicefyConstraint minAbs minFix maxPad d cut = some c' →
      c'.sense = Sense.G) := by
  unfold DGG_nicefyConstraint
  by_cases hL : cut.sense = Sense.L
  · simp [hL]
  · constructor
    · simp [hL]
    · intro c' hc'
      simp only [hL, if_false, Option.some.injEq] at hc'
      rw [← hc']

/-- Witness for C7: an `'='` constraint is accepted and comes back `'≥'`;
(second conjunct applied to the concrete output of the nicefier). -/
theorem nicefy_sense_spec_witness :
    DGG_nicefyConstraint (1/1000) (1/100) (1/10) dataOne
        ⟨[(1, 0)], 1, Sense.E⟩ ≠ none ∧
    ∀ c', DGG_nicefyConstraint (1/1000) (1/100) (1/10) dataOne
        ⟨[(1, 0)], 1, Sense.E⟩ = some c' → c'.sense = Sense.G := by
  have h := nicefy_sense_spec (1/1000) (1/100) (1/10) dataOne
    ⟨[(1, 0)], 1, Sense.E⟩
  exact ⟨fun hn => absurd (h.1.mp hn) (by decide), h.2⟩

theorem nicefyPass1_of (minAbs : ℚ) (s : ℚ × ℕ)
    (h0 : s.1 = 0 ∨ minAbs ≤ |s.1|) : nicefyPass1 minAbs s = s := by
  unfold nicefyPass1
  rcases h0 with h | h
  · split_ifs
    · exact Prod.ext h.symm rfl
    · rfl
  · rw [if_neg (not_lt.mpr h)]

theorem onceTerm_stable (minAbs minFix maxPad : ℚ) (d : DGGdata) (s : ℚ × ℕ)
    (h0 : s.1 = 0 ∨ minAbs ≤ |s.1|)
    (hfix : (nicefyTerm minAbs minFix maxPad d s).1 = s) :
    onceTerm minAbs minFix maxPad d s = s := by
  unfold onceTerm
  rw [nicefyPass1_of minAbs s h0, hfix]

theorem ABOV_intCast_add (z : ℤ) (r : ℚ) (h0 : 0 ≤ r) (h1 : r < 1) :
    ABOV ((z : ℚ) + r) = r := by
  unfold ABOV
  rw [Int.floor_int_add, Int.floor_eq_zero_iff.mpr ⟨h0, h1⟩]
  push_cast
  ring

/-- An integer-valued coefficient is a fixed point of the rounding pass. -/
theorem nicefyTerm_int_fixed (minAbs minFix maxPad : ℚ) (d : DGGdata)
    (hF : 0 < minFix) (hP : 0 < maxPad) (z : ℤ) (idx : ℕ)
    (hint : d.isInteger idx = true) :
    (nicefyTerm minAbs minFix maxPad d ((z : ℚ), idx)).1 = ((z : ℚ), idx) := by
  unfold nicefyTerm
  simp [hint, ABOV_intCast, hF, hP, Int.floor_intCast]

/-- An integer plus exactly the fix threshold is a fixed point of the
rounding pass. -/
theorem nicefyTerm_int_plusfix (minAbs minFix maxPad : ℚ) (d : DGGdata)
    (hF : 0 < minFix) (hF2 : minFix ≤ 1/2) (z : ℤ) (idx : ℕ)
    (hint : d.isInteger idx = true) :
    (nicefyTerm minAbs minFix maxPad d ((z : ℚ) + minFix, idx)).1 =
      ((z : ℚ) + minFix, idx) := by
  have haht : ABOV ((z : ℚ) + minFix) = minFix :=
    ABOV_intCast_add z minFix (le_of_lt hF) (by linarith)
  unfold nicefyTerm
  simp only [hint, if_true, haht]
  rw [if_neg (lt_irrefl minFix), if_neg (by linarith : ¬ 1 - minFix < minFix)]

/-- A coefficient whose fractional part is between the thresholds is a fixed
point of the rounding pass. -/
theorem nicefyTerm_int_mid (minAbs minFix maxPad : ℚ) (d : DGGdata)
    (c : ℚ) (idx : ℕ) (hint : d.isInteger idx = true)
    (h1 : ¬ ABOV c < minFix) (h3 : ¬ 1 - ABOV c < minFix) :
    (nicefyTerm minAbs minFix maxPad d (c, idx)).1 = (c, idx) := by
  unfold nicefyTerm
  simp only [hint, if_true]
  rw [if_neg h1, if_neg h3]

/-- A zero coefficient of a continuous variable is a fixed point of the
rounding pass. -/
theorem nicefyTerm_cont_zero (minAbs minFix maxPad : ℚ) (d : DGGdata)
    (hA : 0 < minAbs) (idx : ℕ) (hint : d.isInteger idx = false) :
    (nicefyTerm minAbs minFix maxPad d (0, idx)).1 = (0, idx) := by
  unfold nicefyTerm
  simp [hint, hA]

/-- A continuous coefficient at or above the fix threshold is a fixed point
of the rounding pass. -/
theorem nicefyTerm_cont_ge (minAbs minFix maxPad : ℚ) (d : DGGdata)
    (hAF : minAbs ≤ minFix) (c : ℚ) (idx : ℕ)
    (hint : d.isInteger idx = false) (hc : minFix ≤ c) :
    (nicefyTerm minAbs minFix maxPad d (c, idx)).1 = (c, idx) := by
  unfold nicefyTerm
  simp only [hint, Bool.false_eq_true, if_false]
  rw [if_neg (not_lt.mpr (le_trans hAF hc)), if_neg (not_lt.mpr hc)]

theorem minAbs_le_abs_intCast_add (minAbs r : ℚ) (hA : 0 < minAbs)
    (hAr : minAbs ≤ r) (hr2 : r ≤ 1 - minAbs) (z : ℤ) :
    minAbs ≤ |(z : ℚ) + r| := by
  rcases lt_trichotomy z 0 with hz | hz | hz
  · have hz1 : (z : ℚ) ≤ -1 := by exact_mod_cast Int.le_sub_one_of_lt hz
    have hle : (z : ℚ) + r ≤ -minAbs := by linarith
    have habs : |(z : ℚ) + r| = -((z : ℚ) + r) :=
      abs_of_nonpos (by linarith)
    rw [habs]
    linarith
  · subst hz
    simpa using hAr.trans (le_abs_self r)
  · have hz1 : (1 : ℚ) ≤ (z : ℚ) := by exact_mod_cast hz
    have habs : |(z : ℚ) + r| = (z : ℚ) + r := abs_of_nonneg (by linarith)
    rw [habs]
    linarith

/-- A second nicefy step leaves an integer-valued coefficient of an integer
variable unchanged. -/
theorem onceTerm_intCast (minAbs minFix maxPad : ℚ) (d : DGGdata)
    (hA : 0 < minAbs) (hAF : minAbs ≤ minFix) (hF2 : minFix ≤ 1/2)
    (hP : 0 < maxPad) (z : ℤ) (idx : ℕ) (hint : d.isInteger idx = true) :
    onceTerm minAbs minFix maxPad d ((z : ℚ), idx) = ((z : ℚ), idx) := by
  have hF : 0 < minFix := lt_of_lt_of_le hA hAF
  refine onceTerm_stable _ _ _ _ _ ?_
    (nicefyTerm_int_fixed _ _ _ _ hF hP _ _ hint)
  rcases eq_or_ne z 0 with hz | hz
  · left; rw [hz]; norm_num
  · right
    have h1 : (1 : ℚ) ≤ |(z : ℚ)| := by
      have := Int.one_le_abs hz
      exact_mod_cast this
    linarith

/-- One nicefy step on a term is idempotent: the second application changes
neither the coefficient nor the index. -/
theorem onceTerm_idem (minAbs minFix maxPad : ℚ) (d : DGGdata)
    (hA : 0 < minAbs) (hAF : minAbs ≤ minFix) (hF2 : minFix ≤ 1/2)
    (hP : 0 < maxPad) (t : ℚ × ℕ) :
    onceTerm minAbs minFix maxPad d (onceTerm minAbs minFix maxPad d t) =
      onceTerm minAbs minFix maxPad d t := by
  have hF : 0 < minFix := lt_of_lt_of_le hA hAF
  obtain ⟨c, idx⟩ := t
  have hp1 : ∃ c₀ : ℚ, nicefyPass1 minAbs (c, idx) = (c₀, idx) := by
    unfold nicefyPass1
    split_ifs <;> exact ⟨_, rfl⟩
  obtain ⟨c₀, hc₀⟩ := hp1
  have honce : onceTerm minAbs minFix maxPad d (c, idx) =
      (nicefyTerm minAbs minFix maxPad d (c₀, idx)).1 := by
    unfold onceTerm
    rw [hc₀]
  rw [honce]
  by_cases hint : d.isInteger idx = true
  · by_cases h1 : ABOV c₀ < minFix
    · by_cases h2 : ABOV c₀ * d.ub idx < maxPad
      · have hs : (nicefyTerm minAbs minFix maxPad d (c₀, idx)).1 =
            ((⌊c₀⌋ : ℚ), idx) := by
          simp [nicefyTerm, hint, h1, h2]
        rw [hs]
        exact onceTerm_intCast _ _ _ _ hA hAF hF2 hP _ _ hint
      · have hs : (nicefyTerm minAbs minFix maxPad d (c₀, idx)).1 =
            ((⌊c₀⌋ : ℚ) + minFix, idx) := by
          simp [nicefyTerm, hint, h1, h2]
        rw [hs]
        refine onceTerm_stable _ _ _ _ _ (Or.inr ?_)
          (nicefyTerm_int_plusfix _ _ _ _ hF hF2 _ _ hint)
        exact minAbs_le_abs_intCast_add minAbs minFix hA hAF (by linarith) _
    · by_cases h3 : 1 - ABOV c₀ < minFix
      · have hs : (nicefyTerm minAbs minFix maxPad d (c₀, idx)).1 =
            ((⌈c₀⌉ : ℚ), idx) := by
          simp [nicefyTerm, hint, h1, h3]
        rw [hs]
        exact onceTerm_intCast _ _ _ _ hA hAF hF2 hP _ _ hint
      · have hs : (nicefyTerm minAbs minFix maxPad d (c₀, idx)).1 = (c₀, idx) :=
          nicefyTerm_int_mid _ _ _ _ _ _ hint h1 h3
        rw [hs]
        refine onceTerm_stable _ _ _ _ _ (Or.inr ?_)
          (nicefyTerm_int_mid _ _ _ _ _ _ hint h1 h3)
        have hcc : ((⌊c₀⌋ : ℚ) + ABOV c₀) = c₀ := by
          unfold ABOV
          ring
        have := minAbs_le_abs_intCast_add minAbs (ABOV c₀) hA
          (hAF.trans (not_lt.mp h1)) (by linarith [not_lt.mp h3]) ⌊c₀⌋
        rwa [hcc] at this
  · have hint' : d.isInteger idx = false := by
      simpa using hint
    by_cases he : c₀ < minAbs
    · have hs : (nicefyTerm minAbs minFix maxPad d (c₀, idx)).1 = (0, idx) := by
        simp [nicefyTerm, hint', he]
      rw [hs]
      refine onceTerm_stable _ _ _ _ _ (Or.inl rfl)
        (nicefyTerm_cont_zero _ _ _ _ hA _ hint')
    · by_cases hf : c₀ < minFix
      · by_cases hg : c₀ * d.ub idx < maxPad
        · have hs : (nicefyTerm minAbs minFix maxPad d (c₀, idx)).1 = (0, idx) := by
            simp [nicefyTerm, hint', he, hf, hg]
          rw [hs]
          refine onceTerm_stable _ _ _ _ _ (Or.inl rfl)
            (nicefyTerm_cont_zero _ _ _ _ hA _ hint')
        · have hs : (nicefyTerm minAbs minFix maxPad d (c₀, idx)).1 =
              (minFix, idx) := by
            simp [nicefyTerm, hint', he, hf, hg]
          rw [hs]
          refine onceTerm_stable _ _ _ _ _ (Or.inr ?_)
            (nicefyTerm_cont_ge _ _ _ _ hAF _ _ hint' le_rfl)
          rw [abs_of_pos hF]
          exact hAF
      · have hs : (nicefyTerm minAbs minFix maxPad d (c₀, idx)).1 = (c₀, idx) :=
          nicefyTerm_cont_ge _ _ _ _ hAF _ _ hint' (not_lt.mp hf)
        rw [hs]
        refine onceTerm_stable _ _ _ _ _ (Or.inr ?_)
          (nicefyTerm_cont_ge _ _ _ _ hAF _ _ hint' (not_lt.mp hf))
        rw [abs_of_nonneg (le_trans (le_of_lt hF) (not_lt.mp hf))]
        exact le_trans hAF (not_lt.mp hf)

theorem nicefy_terms_formula (minAbs minFix maxPad : ℚ) (d : DGGdata)
    (cut : DGGconstraint) (hL : cut.sense ≠ Sense.L) :
    Option.map DGGconstraint.terms
        (DGG_nicefyConstraint minAbs minFix maxPad d cut) =
      some (cut.terms.map (onceTerm minAbs minFix maxPad d)) := by
  unfold DGG_nicefyConstraint
  rw [if_neg hL]
  simp only [Option.map_some, List.map_map]
  refine congrArg some ?_
  refine List.map_congr_left ?_
  intro t _
  simp [onceTerm, Function.comp]

/-- C6: for every snapshot and every `'≥'` constraint that is the output of
one application of `DGG_nicefyConstraint`, a second application succeeds and
leaves every term (coefficient and index) unchanged. -/
theorem nicefy_idempotent (minAbs minFix maxPad : ℚ) (d : DGGdata)
    (hA : 0 < minAbs) (hAF : minAbs ≤ minFix) (hF2 : minFix ≤ 1/2)
    (hP : 0 < maxPad) (cut c₁ : DGGconstraint)
    (hc : DGG_nicefyConstraint minAbs minFix maxPad d cut = some c₁) :
    Option.map DGGconstraint.terms
        (DGG_nicefyConstraint minAbs minFix maxPad d c₁) = some c₁.terms := by
  have hLcut : cut.sense ≠ Sense.L := by
    intro hL
    have hnone := (nicefy_sense_spec minAbs minFix maxPad d cut).1.mpr hL
    rw [hnone] at hc
    cases hc
  have hterms : c₁.terms = cut.terms.map (onceTerm minAbs minFix maxPad d) := by
    have hmap := nicefy_terms_formula minAbs minFix maxPad d cut hLcut
    rw [hc] at hmap
    simpa using hmap
  have hG : c₁.sense = Sense.G :=
    (nicefy_sense_spec minAbs minFix maxPad d cut).2 c₁ hc
  have hL1 : c₁.sense ≠ Sense.L := by
    rw [hG]
    decide
  rw [nicefy_terms_formula minAbs minFix maxPad d c₁ hL1, hterms, List.map_map]
  refine congrArg some ?_
  refine List.map_congr_left ?_
  intro t _
  simpa [Function.comp] using
    onceTerm_idem minAbs minFix maxPad d hA hAF hF2 hP t

/-- Witness for C6: the already-nicefied constraint `1·x₀ ≥ 1` over a
continuous variable is left unchanged by a second nicefy pass. -/
theorem nicefy_idempotent_witness :
    Option.map DGGconstraint.terms
        (DGG_nicefyConstraint (1/1000) (1/100) (1/10) dataOne
          ⟨[(1, 0)], 1, Sense.G⟩) = some [((1 : ℚ), 0)] := by
  have hc : DGG_nicefyConstraint (1/1000) (1/100) (1/10) dataOne
      ⟨[(1, 0)], 1, Sense.G⟩ = some ⟨[(1, 0)], 1, Sense.G⟩ := by
    norm_num [DGG_nicefyConstraint, nicefyPass1, nicefyTerm, dataOne, abs_one]
    exact fun h => absurd h (by decide)
  exact nicefy_idempotent (1/1000) (1/100) (1/10) dataOne
    (by norm_num) (by norm_num) (by norm_num) (by norm_num)
    ⟨[(1, 0)], 1, Sense.G⟩ ⟨[(1, 0)], 1, Sense.G⟩ hc

/-- C9: the copy constructor (hence `clone`) takes only `t_min_`, `t_max_`,
`q_min_`, `q_max_` from the source — the family flags, `a_max_` and
`form_nrows_` of the copy are exactly the indeterminate values, not the
source's — and `operator=` assigns only those four fields, leaving every
other field of the target unchanged. -/
theorem copy_assign_frame (s t : CglTwomir) (u : CglTwomirUninit) :
    ((CglTwomir.copyCtor s u).t_min_ = s.t_min_ ∧
     (CglTwomir.copyCtor s u).t_max_ = s.t_max_ ∧
     (CglTwomir.copyCtor s u).q_min_ = s.q_min_ ∧
     (CglTwomir.copyCtor s u).q_max_ = s.q_max_) ∧
    ((CglTwomir.copyCtor s u).do_mir_ = u.do_mir_ ∧
     (CglTwomir.copyCtor s u).do_2mir_ = u.do_2mir_ ∧
     (CglTwomir.copyCtor s u).do_tab_ = u.do_tab_ ∧
     (CglTwomir.copyCtor s u).do_form_ = u.do_form_ ∧
     (CglTwomir.copyCtor s u).a_max_ = u.a_max_ ∧
     (CglTwomir.copyCtor s u).form_nrows_ = u.form_nrows_) ∧
    (CglTwomir.clone s u = CglTwomir.copyCtor s u) ∧
    ((CglTwomir.assign t s).t_min_ = s.t_min_ ∧
     (CglTwomir.assign t s).t_max_ = s.t_max_ ∧
     (CglTwomir.assign t s).q_min_ = s.q_min_ ∧
     (CglTwomir.assign t s).q_max_ = s.q_max_) ∧
    ((CglTwomir.assign t s).do_mir_ = t.do_mir_ ∧
     (CglTwomir.assign t s).do_2mir_ = t.do_2mir_ ∧
     (CglTwomir.assign t s).do_tab_ = t.do_tab_ ∧
     (CglTwomir.assign t s).do_form_ = t.do_form_ ∧
     (CglTwomir.assign t s).a_max_ = t.a_max_ ∧
     (CglTwomir.assign t s).form_nrows_ = t.form_nrows_) := by
  refine ⟨⟨rfl, rfl, rfl, rfl⟩, ⟨rfl, rfl, rfl, rfl, rfl, rfl⟩, rfl,
    ⟨rfl, rfl, rfl, rfl⟩, ⟨rfl, rfl, rfl, rfl, rfl, rfl⟩⟩

/-- C10: the guard `i >= l->n && i < 0` is unsatisfiable, so `DGG_list_delcut`
never early-returns: for every `i` (including `i ≥ n` and `i < 0`) it
proceeds to overwrite slot `i` with the last entry and decrement the count;
and under the unstated precondition `0 ≤ i < n` (with the count matching the
storage) the result is the swap-remove: the count drops by one and slot `i`
holds the previous last entry. -/
theorem delcut_guard_dead (l : DGGlist) (i : Int) :
    delcutGuard l i = false ∧
    DGG_list_delcut l i =
      { c := l.c.set i.toNat (l.c.getD (l.n - 1) junkConstraint),
        ctype := l.ctype.set i.toNat (l.ctype.getD (l.n - 1) 0),
        alpha := l.alpha.set i.toNat (l.alpha.getD (l.n - 1) 0),
        n := l.n - 1 } ∧
    (0 ≤ i → i < (l.n : Int) → l.n = l.c.length →
      (DGG_list_delcut l i).n = l.n - 1 ∧
      (DGG_list_delcut l i).c.get? i.toNat = l.c.get? (l.n - 1)) := by
  have hguard : delcutGuard l i = false := by
    unfold delcutGuard
    rcases lt_or_le i 0 with h | h
    · have : ¬ i ≥ (l.n : Int) := by
        intro hge
        have : (0 : Int) ≤ l.n := Int.natCast_nonneg _
        omega
      simp [this]
    · simp [not_lt.mpr h]
  refine ⟨hguard, ?_, ?_⟩
  · unfold DGG_list_delcut
    rw [hguard]
    simp
  · intro h0 hn hlen
    unfold DGG_list_delcut
    rw [hguard]
    simp only [Bool.false_eq_true, if_false]
    constructor
    · trivial
    · have hi : i.toNat < l.c.length := by omega
      have hlast : l.n - 1 < l.c.length := by omega
      rw [List.get?_eq_getElem?, List.get?_eq_getElem?,
        List.getElem?_set_self hi,
        List.getD_eq_getElem _ _ hlast,
        List.getElem?_eq_getElem hlast]

/-- Witness for C10: deleting index 0 from a two-entry list moves the last
entry into slot 0 and drops the count to 1. -/
theorem delcut_guard_dead_witness :
    (DGG_list_delcut ⟨[⟨[], 1, Sense.G⟩, ⟨[], 2, Sense.G⟩], [0, 0], [0, 0], 2⟩ 0).n = 1 ∧
    (DGG_list_delcut ⟨[⟨[], 1, Sense.G⟩, ⟨[], 2, Sense.G⟩], [0, 0], [0, 0], 2⟩ 0).c.get? 0 =
      some ⟨[], 2, Sense.G⟩ := by
  have h := (delcut_guard_dead
    ⟨[⟨[], 1, Sense.G⟩, ⟨[], 2, Sense.G⟩], [0, 0], [0, 0], 2⟩ 0).2.2
    (by decide) (by decide) (by decide)
  exact ⟨h.1, h.2.trans rfl⟩
